import Mathlib

/-!
Verification of the archive lookup engine of `repotool` (src/serve.rs).

Strings are embedded as lists of characters (`Str`); Rust's
`str::to_lowercase` is modelled by mapping `Char.toLower` over the list
(ASCII case mapping), `str::strip_prefix` / `str::strip_suffix` by
`dropFront` / `dropBack`, `str::split` by `splitOnChar`, and
`str::trim` by `trimStr` (the same four ASCII whitespace characters as
`Char.isWhitespace`).  Rust's `HashMap<String, RepoMetadata>` is embedded
as an association list with unique keys (`GitArchiveIndex`), built by
last-write-wins insertion exactly as `HashMap::insert` behaves during
`collect()`, and `HashSet<String>` as a plain list of strings (only
membership-style queries are performed on it).
-/

namespace Repotool

/-- Strings as lists of characters. -/
abbrev Str := List Char

/-- Rust `str::to_lowercase`, ASCII fragment: lowercase every character. -/
def toLower (s : Str) : Str := s.map Char.toLower

/-- Rust `str::strip_prefix`: `dropFront pat s` returns the remainder of
`s` after an initial segment equal to `pat`, or `none` when `s` does not
start with `pat`. -/
def dropFront : Str → Str → Option Str
  | [], s => some s
  | _ :: _, [] => none
  | c :: p, d :: s => if c = d then dropFront p s else none

/-- Rust `str::strip_suffix`: `dropBack s pat` returns `s` without a final
segment equal to `pat`, or `none` when `s` does not end with `pat`. -/
def dropBack (s pat : Str) : Option Str :=
  (dropFront pat.reverse s.reverse).map List.reverse

theorem dropFront_eq_some {p s t : Str} :
    dropFront p s = some t ↔ s = p ++ t := by
  induction p generalizing s with
  | nil => simp [dropFront]
  | cons c p ih =>
    cases s with
    | nil => simp [dropFront]
    | cons d s =>
      by_cases h : c = d
      · subst h
        simp [dropFront, ih]
      · simp [dropFront, h, Ne.symm h]

theorem dropBack_eq_some {s pat t : Str} :
    dropBack s pat = some t ↔ s = t ++ pat := by
  unfold dropBack
  constructor
  · intro h
    rcases Option.map_eq_some'.mp h with ⟨u, hu, rfl⟩
    have := dropFront_eq_some.mp hu
    have : s = u.reverse ++ pat := by
      have := congrArg List.reverse this
      simpa [List.reverse_append] using this
    simpa using this
  · intro h
    subst h
    have h2 : dropFront pat.reverse (t ++ pat).reverse = some t.reverse := by
      rw [dropFront_eq_some]
      simp [List.reverse_append]
    rw [h2]
    simp

theorem toNat_ofNat_of_valid {n : Nat} (h : n.isValidChar) :
    (Char.ofNat n).toNat = n := by
  rw [Char.ofNat, dif_pos h]
  rfl

theorem toLower_char_idem (c : Char) : c.toLower.toLower = c.toLower := by
  unfold Char.toLower
  by_cases h : c.toNat ≥ 65 ∧ c.toNat ≤ 90
  · rw [if_pos h]
    have hv : (c.toNat + 32).isValidChar := Or.inl (by omega)
    rw [toNat_ofNat_of_valid hv, if_neg (by omega)]
  · rw [if_neg h, if_neg h]

theorem toLower_idem (s : Str) : toLower (toLower s) = toLower s := by
  simp [toLower, Function.comp_def, toLower_char_idem]

theorem toLower_append (a b : Str) :
    toLower (a ++ b) = toLower a ++ toLower b := by
  simp [toLower]

/-- A string is (ASCII-)lowercase when lowercasing it is the identity. -/
def IsLowerStr (s : Str) : Prop := toLower s = s

theorem isLowerStr_toLower (s : Str) : IsLowerStr (toLower s) := toLower_idem s

theorem isLowerStr_append_parts {a b : Str} (h : IsLowerStr (a ++ b)) :
    IsLowerStr a ∧ IsLowerStr b := by
  unfold IsLowerStr at *
  rw [toLower_append] at h
  have hlen : (toLower a).length = a.length := by simp [toLower]
  exact List.append_inj h hlen

/-- The recognized scheme literals of `handle_has_git_repo_req`
(serve.rs line 186): `http://`, `https://`, `git://`. -/
def schemas : List Str :=
  [['h', 't', 't', 'p', ':', '/', '/'],
   ['h', 't', 't', 'p', 's', ':', '/', '/'],
   ['g', 'i', 't', ':', '/', '/']]

/-- The recognized suffix literals (serve.rs line 187): `.git`. -/
def suffixes : List Str := [['.', 'g', 'i', 't']]

/-- The variant-construction block of `handle_has_git_repo_req`
(serve.rs lines 185-233): lowercase the url, strip the `.git` suffix and
then a scheme (each at most once, bailing with `logic error` when more
than one matches), and emit, for every scheme, the scheme-prefixed form
with and without the suffix, followed by the bare stripped form. -/
def normalizeVariants (url : Str) : Except Str (List Str) :=
  let original := toLower url
  let sufStripped := suffixes.filterMap (fun s => dropBack original s)
  if sufStripped.length > 1 then
    Except.error ("logic error".data)
  else
    let sufStripped1 := sufStripped.headD original
    let schStripped := schemas.filterMap (fun s => dropFront s sufStripped1)
    if schStripped.length > 1 then
      Except.error ("logic error".data)
    else
      let stripped := schStripped.headD sufStripped1
      let variants := schemas.flatMap (fun sch =>
        (suffixes.map (fun suf => (sch ++ stripped) ++ suf)) ++ [sch ++ stripped])
      Except.ok (variants ++ [stripped])

/-- The suffix-stripping step in isolation (serve.rs lines 189-201):
the lowercased url without a final `.git`, or unchanged. -/
def suffixStrippedOf (url : Str) : Str :=
  match dropBack (toLower url) (['.', 'g', 'i', 't']) with
  | some t => t
  | none => toLower url

/-- The scheme-stripping step in isolation (serve.rs lines 203-215). -/
def schemeStripped (s : Str) : Str :=
  (schemas.filterMap (fun p => dropFront p s)).headD s

/-- The fully stripped (bare) form of a url: lowercase, then suffix strip,
then scheme strip (serve.rs lines 189-215). -/
def strippedOf (url : Str) : Str := schemeStripped (suffixStrippedOf url)

/-- The 7-element variant list built from a bare stripped form
(serve.rs lines 217-232). -/
def mkVariants (stripped : Str) : List Str :=
  (schemas.flatMap (fun sch =>
    (suffixes.map (fun suf => (sch ++ stripped) ++ suf)) ++ [sch ++ stripped]))
    ++ [stripped]

theorem scheme_unique (s : Str) :
    (schemas.filterMap (fun p => dropFront p s)).length ≤ 1 := by
  rcases h1 : dropFront ['h', 't', 't', 'p', ':', '/', '/'] s with _ | t1 <;>
    rcases h2 : dropFront ['h', 't', 't', 'p', 's', ':', '/', '/'] s with _ | t2 <;>
      rcases h3 : dropFront ['g', 'i', 't', ':', '/', '/'] s with _ | t3 <;>
        simp [schemas, List.filterMap_cons, h1, h2, h3]
  all_goals simp only [dropFront_eq_some] at h1 h2 h3
  all_goals
    first
    | (subst h1; simp [List.cons_append] at h2; done)
    | (subst h1; simp [List.cons_append] at h3; done)
    | (subst h2; simp [List.cons_append] at h3; done)

theorem sufLen_le (url : Str) :
    (suffixes.filterMap (fun s => dropBack (toLower url) s)).length ≤ 1 := by
  cases h : dropBack (toLower url) ['.', 'g', 'i', 't'] <;> simp [suffixes, h]

theorem sufStripped_eq (url : Str) :
    (suffixes.filterMap (fun s => dropBack (toLower url) s)).headD (toLower url)
      = suffixStrippedOf url := by
  cases h : dropBack (toLower url) ['.', 'g', 'i', 't'] <;>
    simp [suffixes, suffixStrippedOf, h]

theorem norm_ok (url : Str) :
    normalizeVariants url = Except.ok (mkVariants (strippedOf url)) := by
  simp only [normalizeVariants]
  rw [if_neg (by have := sufLen_le url; omega)]
  rw [sufStripped_eq url]
  rw [if_neg (by have := scheme_unique (suffixStrippedOf url); omega)]
  rfl

/-- One parsed archive entry (serve.rs lines 54-61); field `url` is the
original-case raw URL. -/
structure RepoMetadata where
  url : Str
  path : Str
  commit_hash : Str
  commit_date : Str
  last_fetch : Str
deriving DecidableEq, Repr

/-- The `HashMap<String, RepoMetadata>` of serve.rs, embedded as an
association list whose keys are unique (the parser below only ever
inserts with last-write-wins overwrite, exactly as `HashMap::insert`). -/
abbrev GitArchiveIndex := List (Str × RepoMetadata)

/-- `HashMap::get`: the record stored at key `k`, if any. -/
def lookupKey (archive : GitArchiveIndex) (k : Str) : Option RepoMetadata :=
  match archive with
  | [] => none
  | e :: rest => if e.1 = k then some e.2 else lookupKey rest k

/-- `HashMap::insert` (as performed by `collect()` for each line):
overwrite any existing binding of `k`. -/
def insertKey (archive : GitArchiveIndex) (k : Str) (m : RepoMetadata) :
    GitArchiveIndex :=
  (archive.filter (fun e => !(e.1 == k))) ++ [(k, m)]

/-- The response body of `/has_git_repo` (serve.rs lines 253-270):
`existsFlag` is the JSON field `exists`; the JSON object carries a
`metadata` object exactly when `metadata` here is `some`. -/
structure GitRepoResponse where
  existsFlag : Bool
  existing : List Str
  metadata : Option RepoMetadata
deriving DecidableEq, Repr

/-- The lookup loop of serve.rs lines 241-248: the records found at the
variants, in variant order. -/
def matchedRecords (variants : List Str) (archive : GitArchiveIndex) :
    List RepoMetadata :=
  variants.filterMap (fun v => lookupKey archive v)

/-- `handle_has_git_repo_req` (serve.rs lines 179-275): normalize the
requested url, collect the raw urls of all records keyed by a variant,
report `exists` as non-emptiness of that list, and attach the metadata of
the first variant hit, if any. -/
def handle_has_git_repo_req (url : Str) (archive : GitArchiveIndex) :
    Except Str GitRepoResponse :=
  match normalizeVariants url with
  | Except.error e => Except.error e
  | Except.ok variants =>
    let matched := matchedRecords variants archive
    Except.ok
      { existsFlag := !(matched.map (fun m => m.url)).isEmpty
        existing := matched.map (fun m => m.url)
        metadata := matched.head? }

/-- The response `handle_has_git_repo_req` always produces (its error
branch being unreachable, see `norm_ok`). -/
def mkResponse (url : Str) (archive : GitArchiveIndex) : GitRepoResponse :=
  let matched := matchedRecords (mkVariants (strippedOf url)) archive
  { existsFlag := !(matched.map (fun m => m.url)).isEmpty
    existing := matched.map (fun m => m.url)
    metadata := matched.head? }

theorem handle_eq (url : Str) (archive : GitArchiveIndex) :
    handle_has_git_repo_req url archive = Except.ok (mkResponse url archive) := by
  unfold handle_has_git_repo_req mkResponse
  rw [norm_ok]

/-- Rust `str::split` on a single character: `"a,b"` gives `["a","b"]`,
the empty string gives `[""]`, and delimiters at the ends yield empty
fields. -/
def splitOnChar (c : Char) : Str → List Str
  | [] => [[]]
  | d :: rest =>
    match splitOnChar c rest with
    | [] => [[]]
    | s :: ss => if d = c then [] :: s :: ss else (d :: s) :: ss

/-- Rust `str::trim` (ASCII whitespace fragment): drop leading and
trailing whitespace characters. -/
def trimStr (s : Str) : Str :=
  ((s.dropWhile Char.isWhitespace).reverse.dropWhile Char.isWhitespace).reverse

/-- The line preprocessing of `read_and_parse_git_archive`
(serve.rs lines 65-67): split the contents into lines, trim each, and
drop the lines that are empty after trimming. -/
def contentLines (contents : Str) : List Str :=
  ((splitOnChar '\n' contents).map trimStr).filter (fun l => !l.isEmpty)

/-- Parsing one line (serve.rs lines 68-83): split on `,`; exactly 5
fields produce a record, anything else is the `bad line` panic, modelled
as `none`. -/
def parseLine (line : Str) : Option RepoMetadata :=
  match splitOnChar ',' line with
  | [u, p, h, d, f] => some ⟨u, p, h, d, f⟩
  | _ => none

/-- The records of a list of lines, in file order; `none` as soon as one
line is malformed. -/
def parseRecords : List Str → Option (List RepoMetadata)
  | [] => some []
  | l :: rest =>
    match parseLine l, parseRecords rest with
    | some m, some ms => some (m :: ms)
    | _, _ => none

/-- The `collect()` into a `HashMap` (serve.rs lines 64-84): insert each
line's record under its lowercased url, later lines overwriting earlier
ones; `none` when any line is malformed. -/
def parseAll : List Str → GitArchiveIndex → Option GitArchiveIndex
  | [], acc => some acc
  | l :: rest, acc =>
    match parseLine l with
    | none => none
    | some m => parseAll rest (insertKey acc (toLower m.url) m)

/-- `read_and_parse_git_archive` (serve.rs lines 63-87), the file
contents given directly (the surrounding `fs::read_to_string` is I/O). -/
def read_and_parse_git_archive (contents : Str) : Option GitArchiveIndex :=
  parseAll (contentLines contents) []

/-- The reload action of the watcher thread (serve.rs lines 111-126):
re-parse the file and replace the shared index; a parse failure abandons
the update (the source panics out of the watcher thread before the
assignment), leaving the previous index in place. -/
def reloadStep (current : GitArchiveIndex) (newContents : Str) :
    GitArchiveIndex :=
  match read_and_parse_git_archive newContents with
  | some m => m
  | none => current

/-- `read_and_parse_huggingface_archive` (serve.rs lines 89-97): the
trimmed non-blank lines (the `HashSet` is embedded as a list; only
existence scans are performed on it). -/
def read_and_parse_huggingface_archive (contents : Str) : List Str :=
  ((splitOnChar '\n' contents).map trimStr).filter (fun l => !l.isEmpty)

/-- `handle_has_huggingface_repo_req` (serve.rs lines 277-297): the
`exists` field of the response — a case-insensitive equality scan. -/
def handle_has_huggingface_repo_req (repo : Str) (archive : List Str) :
    Bool :=
  archive.any (fun r => toLower r == toLower repo)

theorem isLowerStr_append {a b : Str} (ha : IsLowerStr a) (hb : IsLowerStr b) :
    IsLowerStr (a ++ b) := by
  unfold IsLowerStr at *
  rw [toLower_append, ha, hb]

theorem suffixStrippedOf_lower (url : Str) : IsLowerStr (suffixStrippedOf url) := by
  unfold suffixStrippedOf
  cases h : dropBack (toLower url) ['.', 'g', 'i', 't'] with
  | none => exact isLowerStr_toLower url
  | some t =>
    rw [dropBack_eq_some] at h
    exact (isLowerStr_append_parts (h ▸ isLowerStr_toLower url)).1

theorem schemeStripped_lower {s : Str} (hs : IsLowerStr s) :
    IsLowerStr (schemeStripped s) := by
  unfold schemeStripped
  rcases h1 : dropFront ['h', 't', 't', 'p', ':', '/', '/'] s with _ | t1 <;>
    rcases h2 : dropFront ['h', 't', 't', 'p', 's', ':', '/', '/'] s with _ | t2 <;>
      rcases h3 : dropFront ['g', 'i', 't', ':', '/', '/'] s with _ | t3 <;>
        simp [schemas, List.filterMap_cons, h1, h2, h3]
  all_goals
    first
    | (rw [dropFront_eq_some] at h1
       exact (isLowerStr_append_parts (h1 ▸ hs)).2)
    | (rw [dropFront_eq_some] at h2
       exact (isLowerStr_append_parts (h2 ▸ hs)).2)
    | (rw [dropFront_eq_some] at h3
       exact (isLowerStr_append_parts (h3 ▸ hs)).2)
    | exact hs

theorem strippedOf_lower (url : Str) : IsLowerStr (strippedOf url) :=
  schemeStripped_lower (suffixStrippedOf_lower url)

/-- C2: for every input string, the normalization step succeeds and
produces exactly the 7 lowercase variants: for each of `http://`,
`https://`, `git://` the scheme-prefixed stripped form with the `.git`
suffix and without it, plus the bare stripped form, which is always among
the 7. -/
theorem normalize_seven_variants (u : Str) :
    normalizeVariants u = Except.ok (mkVariants (strippedOf u)) ∧
    mkVariants (strippedOf u) =
      [((['h', 't', 't', 'p', ':', '/', '/'] ++ strippedOf u) ++ ['.', 'g', 'i', 't']),
       (['h', 't', 't', 'p', ':', '/', '/'] ++ strippedOf u),
       ((['h', 't', 't', 'p', 's', ':', '/', '/'] ++ strippedOf u) ++ ['.', 'g', 'i', 't']),
       (['h', 't', 't', 'p', 's', ':', '/', '/'] ++ strippedOf u),
       ((['g', 'i', 't', ':', '/', '/'] ++ strippedOf u) ++ ['.', 'g', 'i', 't']),
       (['g', 'i', 't', ':', '/', '/'] ++ strippedOf u),
       strippedOf u] ∧
    (mkVariants (strippedOf u)).length = 7 ∧
    (∀ v ∈ mkVariants (strippedOf u), toLower v = v) ∧
    strippedOf u ∈ mkVariants (strippedOf u) := by
  have hX : IsLowerStr (strippedOf u) := strippedOf_lower u
  have hg : IsLowerStr ['.', 'g', 'i', 't'] := by unfold IsLowerStr; decide
  have hs1 : IsLowerStr ['h', 't', 't', 'p', ':', '/', '/'] := by unfold IsLowerStr; decide
  have hs2 : IsLowerStr ['h', 't', 't', 'p', 's', ':', '/', '/'] := by unfold IsLowerStr; decide
  have hs3 : IsLowerStr ['g', 'i', 't', ':', '/', '/'] := by unfold IsLowerStr; decide
  refine ⟨norm_ok u, rfl, rfl, ?_, ?_⟩
  · intro v hv
    simp only [mkVariants, schemas, suffixes, List.flatMap_cons, List.flatMap_nil,
      List.map_cons, List.map_nil, List.cons_append, List.nil_append, List.append_nil,
      List.mem_cons, List.mem_append, List.mem_singleton, List.not_mem_nil, or_false] at hv
    rcases hv with rfl | rfl | rfl | rfl | rfl | rfl | rfl
    · exact isLowerStr_append (isLowerStr_append hs1 hX) hg
    · exact isLowerStr_append hs1 hX
    · exact isLowerStr_append (isLowerStr_append hs2 hX) hg
    · exact isLowerStr_append hs2 hX
    · exact isLowerStr_append (isLowerStr_append hs3 hX) hg
    · exact isLowerStr_append hs3 hX
    · exact hX
  · simp [mkVariants]

/-- C9: the `logic error` branches of the normalization step are
unreachable — at most one suffix and at most one scheme can ever be
stripped — so `handle_has_git_repo_req` always succeeds, returning the
response `mkResponse`. -/
theorem git_repo_handler_total (url : Str) (archive : GitArchiveIndex) :
    (suffixes.filterMap (fun s => dropBack (toLower url) s)).length ≤ 1 ∧
    (schemas.filterMap (fun p => dropFront p (suffixStrippedOf url))).length ≤ 1 ∧
    handle_has_git_repo_req url archive = Except.ok (mkResponse url archive) :=
  ⟨sufLen_le url, scheme_unique _, handle_eq url archive⟩

theorem head?_filterMap {α β : Type} (f : α → Option β) (l : List α) :
    (l.filterMap f).head? = (l.find? (fun a => (f a).isSome)).bind f := by
  induction l with
  | nil => rfl
  | cons a l ih =>
    cases h : f a with
    | some b => simp [List.filterMap_cons, h, List.find?_cons_of_pos, Option.isSome]
    | none =>
      rw [List.filterMap_cons_none h, List.find?_cons_of_neg, ih]
      simp [h]

/-- The archive of the claim scenario: one entry keyed by the lowercase
raw url `https://github.com/rust-lang/rust.git`. -/
def rustMeta : RepoMetadata :=
  ⟨"https://github.com/rust-lang/rust.git".data, "/archive/rust.git".data,
   "abc123".data, "2025-01-01 12:00:00".data, "never".data⟩

def rustArchive : GitArchiveIndex :=
  [("https://github.com/rust-lang/rust.git".data, rustMeta)]

/-- C1: `handle_has_git_repo_req` reports a url as present exactly when
one of its 7 variants is a key of the index, and `existing` contains
exactly the original-case raw urls of the records keyed by a variant; in
particular the query `github.com/rust-lang/rust` against an archive
containing `https://github.com/rust-lang/rust.git` is found with that raw
url among `existing`. -/
theorem check_git_repo_existing (archive : GitArchiveIndex) (url : Str) :
    handle_has_git_repo_req url archive = Except.ok (mkResponse url archive) ∧
    ((mkResponse url archive).existsFlag = true ↔
      ∃ v ∈ mkVariants (strippedOf url), (lookupKey archive v).isSome = true) ∧
    (∀ s : Str, s ∈ (mkResponse url archive).existing ↔
      ∃ v ∈ mkVariants (strippedOf url), ∃ m : RepoMetadata,
        lookupKey archive v = some m ∧ m.url = s) ∧
    ((mkResponse ("github.com/rust-lang/rust".data) rustArchive).existsFlag = true ∧
      ("https://github.com/rust-lang/rust.git".data : Str)
        ∈ (mkResponse ("github.com/rust-lang/rust".data) rustArchive).existing) := by
  refine ⟨handle_eq url archive, ?_, ?_, by decide, by decide⟩
  · simp [mkResponse, matchedRecords, List.isEmpty_iff, List.filterMap_eq_nil_iff,
      Option.isSome_iff_exists, Option.ne_none_iff_exists']
  · intro s
    simp [mkResponse, matchedRecords, List.mem_map, List.mem_filterMap]
    tauto

/-- C10: the response carries a metadata object exactly when `exists` is
true (equivalently, when `existing` is non-empty), and that metadata is
the record of the first variant, in the fixed generation order, that is a
key of the index. -/
theorem check_git_repo_metadata (archive : GitArchiveIndex) (url : Str) :
    handle_has_git_repo_req url archive = Except.ok (mkResponse url archive) ∧
    ((mkResponse url archive).metadata.isSome = true ↔
      (mkResponse url archive).existsFlag = true) ∧
    ((mkResponse url archive).existsFlag = true ↔
      (mkResponse url archive).existing ≠ []) ∧
    (mkResponse url archive).metadata
      = ((mkVariants (strippedOf url)).find?
          (fun v => (lookupKey archive v).isSome)).bind (lookupKey archive) := by
  refine ⟨handle_eq url archive, ?_, ?_, ?_⟩
  · cases hm : matchedRecords (mkVariants (strippedOf url)) archive with
    | nil => simp [mkResponse, hm]
    | cons a l => simp [mkResponse, hm]
  · simp [mkResponse, List.isEmpty_iff]
  · exact head?_filterMap _ _

/-- C3: when a reload re-parse fails, the index is left unchanged and a
query performed afterwards sees exactly the previous index. -/
theorem reload_stale_on_failure (current : GitArchiveIndex) (contents : Str)
    (h : read_and_parse_git_archive contents = none) :
    reloadStep current contents = current ∧
    ∀ url, handle_has_git_repo_req url (reloadStep current contents)
      = handle_has_git_repo_req url current := by
  have heq : reloadStep current contents = current := by
    simp [reloadStep, h]
  exact ⟨heq, fun url => by rw [heq]⟩

theorem reload_stale_on_failure_witness :
    read_and_parse_git_archive ("not a valid archive line".data) = none ∧
    reloadStep rustArchive ("not a valid archive line".data) = rustArchive :=
  ⟨by decide, (reload_stale_on_failure rustArchive ("not a valid archive line".data)
      (by decide)).1⟩

/-- C8: the huggingface check reports present exactly when some stored
identifier lowercases to the lowercased query, and two queries with the
same lowercasing always get identical results. -/
theorem check_huggingface_repo (archive : List Str) (q q1 q2 : Str) :
    (handle_has_huggingface_repo_req q archive = true ↔
      ∃ r ∈ archive, toLower r = toLower q) ∧
    (toLower q1 = toLower q2 →
      handle_has_huggingface_repo_req q1 archive
        = handle_has_huggingface_repo_req q2 archive) := by
  constructor
  · simp [handle_has_huggingface_repo_req, List.any_eq_true]
  · intro h
    simp [handle_has_huggingface_repo_req, h]

/-- The huggingface archive of the claim scenario. -/
def hfArchive : List Str := ["meta-llama/Llama-2-7b-hf".data]

theorem check_huggingface_repo_witness :
    toLower ("Meta-Llama/Llama-2-7b-HF".data)
      = toLower ("meta-llama/llama-2-7b-hf".data) ∧
    handle_has_huggingface_repo_req ("Meta-Llama/Llama-2-7b-HF".data) hfArchive
      = handle_has_huggingface_repo_req ("meta-llama/llama-2-7b-hf".data) hfArchive :=
  ⟨by decide,
   (check_huggingface_repo hfArchive [] ("Meta-Llama/Llama-2-7b-HF".data)
      ("meta-llama/llama-2-7b-hf".data)).2 (by decide)⟩

theorem parseLine_isSome (l : Str) :
    (parseLine l).isSome = true ↔ (splitOnChar ',' l).length = 5 := by
  unfold parseLine
  rcases h : splitOnChar ',' l with
      _ | ⟨a, _ | ⟨b, _ | ⟨c, _ | ⟨d, _ | ⟨e, _ | ⟨f, rest⟩⟩⟩⟩⟩⟩ <;>
    simp

theorem parseAll_isSome (ls : List Str) :
    ∀ acc, (parseAll ls acc).isSome = true ↔
      ∀ l ∈ ls, (parseLine l).isSome = true := by
  induction ls with
  | nil => intro acc; simp [parseAll]
  | cons l rest ih =>
    intro acc
    cases h : parseLine l with
    | none => simp [parseAll, h]
    | some m => simp [parseAll, h, ih]

/-- C6: the git archive parser succeeds exactly when every non-blank
trimmed line splits on the comma into exactly 5 fields; lines that are
blank after trimming are not among the parsed lines, so they can never
cause a failure. -/
theorem parser_all_or_nothing (contents : Str) :
    ((read_and_parse_git_archive contents).isSome = true ↔
      ∀ l ∈ contentLines contents, (splitOnChar ',' l).length = 5) ∧
    (∀ l : Str, l.isEmpty = true → l ∉ contentLines contents) := by
  constructor
  · unfold read_and_parse_git_archive
    rw [parseAll_isSome]
    exact forall₂_congr fun l _ => parseLine_isSome l
  · intro l hl hmem
    rw [contentLines, List.mem_filter] at hmem
    rw [hl] at hmem
    simp at hmem

theorem lookupKey_insert_self (idx : GitArchiveIndex) (k : Str) (m : RepoMetadata) :
    lookupKey (insertKey idx k m) k = some m := by
  induction idx with
  | nil => simp [insertKey, lookupKey]
  | cons e idx ih =>
    by_cases h : e.1 = k
    · simpa [insertKey, List.filter_cons, h] using ih
    · simpa [insertKey, List.filter_cons, h, lookupKey] using ih

theorem lookupKey_insert_ne (idx : GitArchiveIndex) (k k' : Str)
    (m : RepoMetadata) (h : k' ≠ k) :
    lookupKey (insertKey idx k m) k' = lookupKey idx k' := by
  induction idx with
  | nil => simp [insertKey, lookupKey, Ne.symm h]
  | cons e idx ih =>
    by_cases he : e.1 = k
    · have h1 : insertKey (e :: idx) k m = insertKey idx k m := by
        simp [insertKey, List.filter_cons, he]
      have h2 : lookupKey (e :: idx) k' = lookupKey idx k' := by
        rw [lookupKey, if_neg (by rw [he]; exact Ne.symm h)]
      rw [h1, h2, ih]
    · have h1 : insertKey (e :: idx) k m = e :: insertKey idx k m := by
        simp [insertKey, List.filter_cons, he]
      rw [h1, lookupKey]
      by_cases he' : e.1 = k'
      · rw [if_pos he', lookupKey, if_pos he']
      · rw [if_neg he', ih, lookupKey, if_neg he']

/-- The two structural invariants of a parsed index: the keys are
pairwise distinct, and each key is the lowercased raw url of its record. -/
def GoodIndex (idx : GitArchiveIndex) : Prop :=
  (idx.map Prod.fst).Nodup ∧ ∀ e ∈ idx, e.1 = toLower e.2.url

theorem goodIndex_insert {idx : GitArchiveIndex} (hg : GoodIndex idx)
    (m : RepoMetadata) : GoodIndex (insertKey idx (toLower m.url) m) := by
  constructor
  · rw [insertKey, List.map_append, List.nodup_append]
    refine ⟨?_, by simp, ?_⟩
    · exact ((List.filter_sublist _).map Prod.fst).nodup hg.1
    · intro a ha hb
      simp at hb
      rcases List.mem_map.mp ha with ⟨e, he, rfl⟩
      rcases List.mem_filter.mp he with ⟨_, hne⟩
      simp [hb] at hne
  · intro e he
    rcases List.mem_append.mp he with hf | hl
    · exact hg.2 e (List.mem_of_mem_filter hf)
    · simp at hl
      subst hl
      rfl

theorem parseAll_good (ls : List Str) :
    ∀ acc idx, GoodIndex acc → parseAll ls acc = some idx → GoodIndex idx := by
  induction ls with
  | nil =>
    intro acc idx hg h
    simp [parseAll] at h
    exact h ▸ hg
  | cons l rest ih =>
    intro acc idx hg h
    cases hl : parseLine l with
    | none => simp [parseAll, hl] at h
    | some m =>
      rw [parseAll, hl] at h
      exact ih _ _ (goodIndex_insert hg m) h

theorem parseAll_lookup (ls : List Str) :
    ∀ acc idx, parseAll ls acc = some idx →
      ∃ ms, parseRecords ls = some ms ∧
        ∀ k, lookupKey idx k =
          (ms.reverse.find? (fun m => toLower m.url == k)).or (lookupKey acc k) := by
  induction ls with
  | nil =>
    intro acc idx h
    simp [parseAll] at h
    exact ⟨[], rfl, fun k => by simp [h]⟩
  | cons l rest ih =>
    intro acc idx h
    cases hl : parseLine l with
    | none => simp [parseAll, hl] at h
    | some m =>
      rw [parseAll, hl] at h
      rcases ih _ _ h with ⟨ms, hms, hk⟩
      refine ⟨m :: ms, by simp [parseRecords, hl, hms], fun k => ?_⟩
      rw [hk k]
      rw [List.reverse_cons, List.find?_append]
      cases hft : ms.reverse.find? (fun m => toLower m.url == k) with
      | some x => simp [Option.or]
      | none =>
        simp only [Option.or, List.find?]
        by_cases hkm : k = toLower m.url
        · subst hkm
          simp [lookupKey_insert_self]
        · have : (toLower m.url == k) = false := by
            simp [Ne.symm hkm]
          rw [this]
          simp [lookupKey_insert_ne _ _ _ _ hkm]

/-- C7: any index the parser produces has pairwise distinct keys, each
key is the lowercased raw url of its record (which keeps its original
case), and the record stored under a key is the one from the last line in
file order whose lowercased url is that key. -/
theorem parsed_index_invariants (contents : Str) (idx : GitArchiveIndex)
    (h : read_and_parse_git_archive contents = some idx) :
    (idx.map Prod.fst).Nodup ∧
    (∀ e ∈ idx, e.1 = toLower e.2.url) ∧
    ∃ ms, parseRecords (contentLines contents) = some ms ∧
      ∀ k, lookupKey idx k = ms.reverse.find? (fun m => toLower m.url == k) := by
  have hg := parseAll_good (contentLines contents) [] idx
    ⟨by simp, by simp⟩ h
  rcases parseAll_lookup (contentLines contents) [] idx h with ⟨ms, hms, hk⟩
  refine ⟨hg.1, hg.2, ms, hms, fun k => ?_⟩
  rw [hk k]
  simp [lookupKey, Option.or_none]

/-- A two-line file whose lines share the lowercased key `u`. -/
def dupContents : Str := "U,p1,h1,d1,f1\nu,p2,h2,d2,f2".data

def dupIdx : GitArchiveIndex :=
  [(['u'], ⟨['u'], "p2".data, "h2".data, "d2".data, "f2".data⟩)]

theorem parsed_index_invariants_witness :
    read_and_parse_git_archive dupContents = some dupIdx ∧
    ((dupIdx.map Prod.fst).Nodup ∧
      (∀ e ∈ dupIdx, e.1 = toLower e.2.url) ∧
      ∃ ms, parseRecords (contentLines dupContents) = some ms ∧
        ∀ k, lookupKey dupIdx k
          = ms.reverse.find? (fun m => toLower m.url == k)) :=
  ⟨by decide, parsed_index_invariants dupContents dupIdx (by decide)⟩

/-- Does the string start with one of the three recognized schemes? -/
def startsWithScheme (s : Str) : Bool :=
  schemas.any (fun p => (dropFront p s).isSome)

/-- Does the string end with the recognized suffix `.git`? -/
def endsWithGitSuffix (s : Str) : Bool :=
  (dropBack s ['.', 'g', 'i', 't']).isSome

theorem self_mem_variants (s : Str) : s ∈ mkVariants (schemeStripped s) := by
  unfold schemeStripped
  rcases h1 : dropFront ['h', 't', 't', 'p', ':', '/', '/'] s with _ | t1 <;>
    rcases h2 : dropFront ['h', 't', 't', 'p', 's', ':', '/', '/'] s with _ | t2 <;>
      rcases h3 : dropFront ['g', 'i', 't', ':', '/', '/'] s with _ | t3 <;>
        simp only [schemas, List.filterMap_cons, List.filterMap_nil, h1, h2, h3,
          List.headD_cons, List.headD_nil]
  all_goals
    first
    | (rw [dropFront_eq_some] at h1
       subst h1
       simp [mkVariants, schemas, suffixes]
       done)
    | (rw [dropFront_eq_some] at h2
       subst h2
       simp [mkVariants, schemas, suffixes]
       done)
    | (rw [dropFront_eq_some] at h3
       subst h3
       simp [mkVariants, schemas, suffixes]
       done)
    | simp [mkVariants]

theorem scheme_reaches_suffix_stripped {p t rest : Str}
    (hp : p ∈ schemas)
    (hL : p ++ rest = t ++ ['.', 'g', 'i', 't']) :
    ∃ q, t = p ++ q := by
  rcases List.append_eq_append_iff.mp hL with ⟨q, hq, _⟩ | ⟨c, hc, hg⟩
  · exact ⟨q, hq⟩
  · cases c with
    | nil =>
      refine ⟨[], ?_⟩
      rw [List.append_nil] at hc
      rw [hc, List.append_nil]
    | cons ch c2 =>
      have hch : ch = '.' := by
        rw [List.cons_append] at hg
        exact ((List.cons.injEq _ _ _ _ ▸ hg).1).symm
      have hdot : '.' ∈ p := by
        rw [hc, hch]
        simp
      fin_cases hp <;> simp at hdot

theorem suffix_variant_mem {t : Str}
    (h : ∃ p ∈ schemas, (dropFront p t).isSome = true) :
    t ++ ['.', 'g', 'i', 't'] ∈ mkVariants (schemeStripped t) := by
  unfold schemeStripped
  rcases h1 : dropFront ['h', 't', 't', 'p', ':', '/', '/'] t with _ | t1 <;>
    rcases h2 : dropFront ['h', 't', 't', 'p', 's', ':', '/', '/'] t with _ | t2 <;>
      rcases h3 : dropFront ['g', 'i', 't', ':', '/', '/'] t with _ | t3 <;>
        simp only [schemas, List.filterMap_cons, List.filterMap_nil, h1, h2, h3,
          List.headD_cons, List.headD_nil]
  all_goals
    first
    | (rw [dropFront_eq_some] at h1
       subst h1
       simp [mkVariants, schemas, suffixes]
       done)
    | (rw [dropFront_eq_some] at h2
       subst h2
       simp [mkVariants, schemas, suffixes]
       done)
    | (rw [dropFront_eq_some] at h3
       subst h3
       simp [mkVariants, schemas, suffixes]
       done)
    | (exfalso
       rcases h with ⟨p, hp, hsome⟩
       fin_cases hp <;> simp_all)

/-- A record whose raw url is the scheme-less, `.git`-suffixed `a.git`. -/
def aMeta : RepoMetadata :=
  ⟨"a.git".data, "p".data, "h".data, "d".data, "f".data⟩

/-- C4 fails as stated: the stored raw url `a.git` (scheme-less, ending in
`.git`) lowercases to itself, yet that string is not among its own 7
variants, so the stored entry is not found when queried with its exact
stored form. -/
theorem roundtrip_counterexample :
    toLower ("a.git".data) ∉ mkVariants (strippedOf ("a.git".data)) ∧
    (mkResponse ("a.git".data) [("a.git".data, aMeta)]).existsFlag = false := by
  constructor <;> decide

/-- C4 amended: every stored raw url whose lowercased form starts with
one of the three schemes or does not end in `.git` is reachable from its
own exact form — its lowercasing is among its own 7 variants.  (The
frozen claim fails exactly for the scheme-less urls ending in `.git`, see
the counterexample.) -/
theorem roundtrip_amended (r : Str)
    (h : startsWithScheme (toLower r) = true ∨
      endsWithGitSuffix (toLower r) = false) :
    toLower r ∈ mkVariants (strippedOf r) := by
  unfold strippedOf
  cases hsuf : dropBack (toLower r) ['.', 'g', 'i', 't'] with
  | none =>
    have hs : suffixStrippedOf r = toLower r := by
      simp [suffixStrippedOf, hsuf]
    rw [hs]
    exact self_mem_variants _
  | some t =>
    have hs : suffixStrippedOf r = t := by
      simp [suffixStrippedOf, hsuf]
    rw [hs]
    have hsome : startsWithScheme (toLower r) = true := by
      rcases h with h | h
      · exact h
      · rw [endsWithGitSuffix, hsuf] at h
        simp at h
    rw [dropBack_eq_some] at hsuf
    rw [hsuf]
    apply suffix_variant_mem
    rcases List.any_eq_true.mp hsome with ⟨p, hp, hps⟩
    rcases Option.isSome_iff_exists.mp hps with ⟨rest, hrest⟩
    rw [dropFront_eq_some] at hrest
    rcases scheme_reaches_suffix_stripped hp (hrest ▸ hsuf) with ⟨q, hq⟩
    refine ⟨p, hp, ?_⟩
    rw [show dropFront p t = some q from dropFront_eq_some.mpr hq]
    rfl

theorem roundtrip_amended_witness :
    (startsWithScheme (toLower ("HTTPS://GitHub.com/Rust-Lang/Rust.git".data)) = true ∨
      endsWithGitSuffix (toLower ("HTTPS://GitHub.com/Rust-Lang/Rust.git".data)) = false) ∧
    toLower ("HTTPS://GitHub.com/Rust-Lang/Rust.git".data)
      ∈ mkVariants (strippedOf ("HTTPS://GitHub.com/Rust-Lang/Rust.git".data)) :=
  ⟨Or.inl (by decide),
   roundtrip_amended ("HTTPS://GitHub.com/Rust-Lang/Rust.git".data) (Or.inl (by decide))⟩

/-- C5 fails as stated: stripping is attempted once only, so the stripped
form of `a.git.git` is `a.git`, which stripping strips again — applying
the suffix-then-scheme stripping step to an already-stripped string is
not always the identity. -/
theorem strip_idem_counterexample :
    strippedOf ("a.git.git".data) = "a.git".data ∧
    strippedOf (strippedOf ("a.git.git".data))
      ≠ strippedOf ("a.git.git".data) := by
  constructor <;> decide

/-- C5 amended: the stripping step is a fixed point on strings that
neither end in `.git` nor start with a scheme; in particular, restripping
the stripped form of `u` is the identity whenever that stripped form has
no residual `.git` suffix and no residual scheme.  (The frozen claim, an
unconditional `strip(strip(u)) = strip(u)`, fails — see the
counterexample — because a single stripping pass can expose a second
`.git` suffix or a second scheme.) -/
theorem strip_idem_amended (u : Str)
    (h1 : endsWithGitSuffix (strippedOf u) = false)
    (h2 : startsWithScheme (strippedOf u) = false) :
    strippedOf (strippedOf u) = strippedOf u := by
  have hlow : toLower (strippedOf u) = strippedOf u := strippedOf_lower u
  have hnone : dropBack (strippedOf u) ['.', 'g', 'i', 't'] = none := by
    rcases hh : dropBack (strippedOf u) ['.', 'g', 'i', 't'] with _ | t
    · rfl
    · rw [endsWithGitSuffix, hh] at h1
      simp at h1
  have hsuf : suffixStrippedOf (strippedOf u) = strippedOf u := by
    rw [suffixStrippedOf, hlow, hnone]
  have hsch : ∀ p ∈ schemas, dropFront p (strippedOf u) = none := by
    intro p hp
    rcases hh : dropFront p (strippedOf u) with _ | t
    · rfl
    · rw [startsWithScheme] at h2
      have := List.any_eq_false.mp h2 p hp
      rw [hh] at this
      simp at this
  rw [strippedOf, hsuf, schemeStripped,
    List.filterMap_eq_nil_iff.mpr hsch, List.headD_nil]

theorem strip_idem_amended_witness :
    endsWithGitSuffix (strippedOf ("https://x.git".data)) = false ∧
    startsWithScheme (strippedOf ("https://x.git".data)) = false ∧
    strippedOf (strippedOf ("https://x.git".data))
      = strippedOf ("https://x.git".data) :=
  ⟨by decide, by decide,
   strip_idem_amended ("https://x.git".data) (by decide) (by decide)⟩
